import Mathlib

/-!
Verification of the sequence-locator core of `run.py`.

The program searches a remotely listed directory tree for the first place
where a given consecutive sequence of folder names occurs.  Its core is two
functions: `_find_strict_sequence_from_path` (the strict chain follower) and
`find_target_sequence_globally` (the global hunter).  Both consume a single
capability: listing the entries of a path, which either returns a list of
`{name, type, path}` records or fails.

The embedding below models a repository as its listing function
`Repo := String → Except Fault (List Entry)`.  The two Python functions are
translated clause by clause; Python truthiness of `None`/`str` results is
modelled by `pyTruthy`.  The global hunter receives explicit fuel, since its
recursion is through the opaque listing capability; the fuel-stability
theorem for the termination claim shows any fuel beyond the tree depth gives
the same result.  Finite directory trees are modelled by the mutual
inductive `FsNode`/`FsForest`, and `treeRepo` derives the listing function a
forge would present for such a tree (paths are slash-joined names, the empty
path is the root).  Well-formedness of a tree is the statement that the
derived path table has pairwise distinct keys, which is exactly what real
forge trees (distinct sibling names, nonempty slash-free names) satisfy.
-/

/-- A single directory-listing entry as produced by the forge API: a name, a
type string ("file" or "dir"), and a full path from the repository root. -/
structure Entry where
  name : String
  type : String
  path : String
deriving DecidableEq

/-- The fault taxonomy of the listing capability: a missing path
(HTTP 404) or any other failure (rate limit, access, network). -/
inductive Fault where
  | notFoundFault
  | transientFault
deriving DecidableEq

/-- A repository is abstracted by its listing operation: a path either lists
to a sequence of entries or fails with a fault. -/
abbrev Repo := String → Except Fault (List Entry)

/-- Python truthiness of an optional string result: `None` and the empty
string are falsy, every other string is truthy.  This is the test applied by
the code at each `if result:` propagation point. -/
def pyTruthy : Option String → Bool
  | none => false
  | some s => !(s == "")

/-- Embedding of `_find_strict_sequence_from_path` (run.py lines 43-76).
Starting from `basePath`, each segment in turn must occur as a
directory-type entry of the current listing; the first matching entry's
path becomes the new current path.  Any listing fault yields `none`; once
all segments are consumed the current path is returned. -/
def findStrictSequenceFromPath (repo : Repo) : List String → String → Option String
  | [], basePath => some basePath
  | segmentName :: rest, basePath =>
    match repo basePath with
    | Except.error _ => none
    | Except.ok contents =>
      match contents.find? (fun item => item.type == "dir" && item.name == segmentName) with
      | none => none
      | some item => findStrictSequenceFromPath repo rest item.path

/-- Stage 1 loop of `find_target_sequence_globally` (run.py lines 112-127):
scan the listed entries for directory entries named like the first segment;
on a match, return its path at once when no segments remain, otherwise
return the strict chain result when it is truthy, else keep scanning. -/
def stage1Scan (repo : Repo) (firstSegmentName : String) (remainingSegments : List String) :
    List Entry → Option String
  | [] => none
  | item :: rest =>
    if item.type == "dir" && item.name == firstSegmentName then
      if remainingSegments.isEmpty then some item.path
      else
        let r := findStrictSequenceFromPath repo remainingSegments item.path
        if pyTruthy r then r else stage1Scan repo firstSegmentName remainingSegments rest
    else stage1Scan repo firstSegmentName remainingSegments rest

/-- Stage 2 loop of `find_target_sequence_globally` (run.py lines 131-138):
recurse into every directory entry in listing order and return the first
truthy result. -/
def stage2Scan (recurse : String → Option String) : List Entry → Option String
  | [] => none
  | item :: rest =>
    if item.type == "dir" then
      let r := recurse item.path
      if pyTruthy r then r else stage2Scan recurse rest
    else stage2Scan recurse rest

/-- Embedding of `find_target_sequence_globally` (run.py lines 79-140),
with explicit fuel bounding the recursion depth.  An empty segment list
returns `none`; a listing fault at the search root returns `none`;
otherwise Stage 1 scans the direct children and its result is returned
verbatim when it produced one, else Stage 2 recurses into every child
directory with the original full segment list. -/
def findTargetSequenceGlobally (repo : Repo) (fuel : Nat) (segmentsToFind : List String)
    (searchRootPath : String) : Option String :=
  match fuel, segmentsToFind with
  | 0, _ => none
  | _ + 1, [] => none
  | fuel + 1, firstSegmentName :: remainingSegments =>
    match repo searchRootPath with
    | Except.error _ => none
    | Except.ok contents =>
      match stage1Scan repo firstSegmentName remainingSegments contents with
      | some r => some r
      | none =>
        stage2Scan
          (fun childPath =>
            findTargetSequenceGlobally repo fuel (firstSegmentName :: remainingSegments) childPath)
          contents
termination_by structural fuel

/-- Entry point of the spec: the global hunter started at the repository
root `""` (the default of `search_root_path` in run.py line 79). -/
def locateSequence (repo : Repo) (fuel : Nat) (segments : List String) : Option String :=
  findTargetSequenceGlobally repo fuel segments ""

/-! ## Finite directory trees and the listing function they induce -/

mutual
/-- A node of a finite directory tree: a file or a directory with children. -/
inductive FsNode where
  | file (name : String)
  | dir (name : String) (children : FsForest)
/-- A finite ordered forest of tree nodes. -/
inductive FsForest where
  | nil
  | cons (c : FsNode) (cs : FsForest)
end

/-- Membership of a node in a forest. -/
inductive ForestMem (c : FsNode) : FsForest → Prop where
  | head (cs) : ForestMem c (FsForest.cons c cs)
  | tail (d cs) : ForestMem c cs → ForestMem c (FsForest.cons d cs)

/-- Forge path of a child of the directory at `base`: names are joined with
a slash, except that the repository root `""` contributes no separator. -/
def joinPath (base childName : String) : String :=
  if base == "" then childName else base ++ "/" ++ childName

/-- The listing entry a forge produces for a tree node sitting inside the
directory at path `base`. -/
def entryOfNode (base : String) : FsNode → Entry
  | FsNode.file n => { name := n, type := "file", path := joinPath base n }
  | FsNode.dir n _ => { name := n, type := "dir", path := joinPath base n }

/-- The full listing of a directory at path `base` with children `cs`. -/
def entriesOf (base : String) : FsForest → List Entry
  | FsForest.nil => []
  | FsForest.cons c cs => entryOfNode base c :: entriesOf base cs

mutual
/-- Path-to-listing table contributed by one node at base path `base`. -/
def nodeTable (base : String) : FsNode → List (String × List Entry)
  | FsNode.file _ => []
  | FsNode.dir n gcs =>
    (joinPath base n, entriesOf (joinPath base n) gcs) :: forestTable (joinPath base n) gcs
/-- Path-to-listing table contributed by a forest of siblings at `base`. -/
def forestTable (base : String) : FsForest → List (String × List Entry)
  | FsForest.nil => []
  | FsForest.cons c cs => nodeTable base c ++ forestTable base cs
end

/-- The full path-to-listing table of a tree: the root path `""` lists the
root forest, and every directory node contributes its own listing. -/
def repoTable (root : FsForest) : List (String × List Entry) :=
  ("", entriesOf "" root) :: forestTable "" root

/-- First-match association lookup on the path table. -/
def lookupPath (p : String) : List (String × List Entry) → Option (List Entry)
  | [] => none
  | (k, v) :: rest => if k == p then some v else lookupPath p rest

/-- The listing function a forge presents for a finite tree: listed paths
return their entries, every other path raises the not-found fault. -/
def treeRepo (root : FsForest) : Repo := fun p =>
  match lookupPath p (repoTable root) with
  | some es => Except.ok es
  | none => Except.error Fault.notFoundFault

/-- Well-formedness of a tree: the paths of its directories (including the
root path `""`) are pairwise distinct.  Real forge trees satisfy this, since
sibling names are distinct and names are nonempty and slash-free. -/
abbrev wfTree (root : FsForest) : Prop :=
  List.Nodup ((repoTable root).map Prod.fst)

mutual
/-- Depth of a tree node: files have depth 0, a directory is one deeper
than its children forest. -/
def nodeDepth : FsNode → Nat
  | FsNode.file _ => 0
  | FsNode.dir _ gcs => forestDepth gcs + 1
/-- Depth of a forest: the maximal depth of its nodes. -/
def forestDepth : FsForest → Nat
  | FsForest.nil => 0
  | FsForest.cons c cs => max (nodeDepth c) (forestDepth cs)
end

/-- Children forests of the directory nodes named `s`, in sibling order. -/
def dirChildren (s : String) : FsForest → List FsForest
  | FsForest.nil => []
  | FsForest.cons (FsNode.file _) cs => dirChildren s cs
  | FsForest.cons (FsNode.dir n gcs) cs =>
    (if n == s then [gcs] else []) ++ dirChildren s cs

/-- Paths at which a strict chain spelling out `segs` ends, when the chain
must start directly among the children `cs` of the directory at `base`.
The empty sequence ends at `base` itself. -/
def chainEnds : List String → FsForest → String → List String
  | [], _, base => [base]
  | s :: rest, cs, base =>
    ((dirChildren s cs).map (fun gcs => chainEnds rest gcs (joinPath base s))).flatten
termination_by structural segs => segs

mutual
/-- Completion paths of the sequence `segs` occurring strictly inside the
given node (not starting at the node itself). -/
def nodeEnds (segs : List String) : String → FsNode → List String
  | _, FsNode.file _ => []
  | base, FsNode.dir n gcs =>
    chainEnds segs gcs (joinPath base n) ++ deepEnds segs (joinPath base n) gcs
/-- Completion paths of `segs` occurring strictly below the level of the
forest `cs` of children of the directory at `base`. -/
def deepEnds (segs : List String) : String → FsForest → List String
  | _, FsForest.nil => []
  | base, FsForest.cons c cs => nodeEnds segs base c ++ deepEnds segs base cs
end

/-- All completion paths of the sequence `segs` in the forest `cs` of
children of the directory at `base`: chains starting at this very level,
followed by chains starting anywhere deeper, in depth-first sibling order. -/
def forestEnds (segs : List String) (cs : FsForest) (base : String) : List String :=
  chainEnds segs cs base ++ deepEnds segs base cs

mutual
/-- Whether a node is, or contains, a directory named `s`. -/
def nodeHasDir (s : String) : FsNode → Bool
  | FsNode.file _ => false
  | FsNode.dir n gcs => n == s || forestHasDir s gcs
/-- Whether a forest contains a directory named `s` anywhere. -/
def forestHasDir (s : String) : FsForest → Bool
  | FsForest.nil => false
  | FsForest.cons c cs => nodeHasDir s c || forestHasDir s cs
end

/-- Number of slash separators in a path; on the slash-joined paths of a
well-formed tree this is one less than the nesting depth of the node. -/
def slashDepth (p : String) : Nat :=
  (p.toList.filter (fun c => c == '/')).length

/-- The directory positions of a tree reachable by following child names
from the root: `Reach root base cs` states that the directory at path
`base` has children forest `cs`. -/
inductive Reach (root : FsForest) : String → FsForest → Prop where
  | top : Reach root "" root
  | child {base cs n gcs} : Reach root base cs → ForestMem (FsNode.dir n gcs) cs →
      Reach root (joinPath base n) gcs

/-- Contiguous-segment relation on lists: the first list occurs inside the
second as a contiguous run. -/
def listInfix {A : Type} (l L : List A) : Prop := ∃ u v, u ++ (l ++ v) = L

/-- Building a forest from a list of nodes, for readable examples. -/
def forestOfList : List FsNode → FsForest
  | [] => FsForest.nil
  | c :: cs => FsForest.cons c (forestOfList cs)

/-- Directory node with children given as a list, for readable examples. -/
def fsDir (n : String) (cs : List FsNode) : FsNode :=
  FsNode.dir n (forestOfList cs)

/-- Tree refuting claim C1: the sequence ["a"] completes at depth 3 inside
the first sibling subtree and at depth 2 inside the second, and the
depth-first search returns the deeper, earlier completion. -/
def cexTree : FsForest :=
  forestOfList [fsDir "x" [fsDir "y" [fsDir "a" []]], fsDir "z" [fsDir "a" []]]

/-- Tree with a unique completion of ["a", "b"], for witnesses. -/
def abTree : FsForest :=
  forestOfList [fsDir "a" [fsDir "b" []]]

/-- Repository whose every listing faults, for the fault-handling witness. -/
def faultyRepo : Repo := fun _ => Except.error Fault.transientFault

/-- Repository with two same-named sibling directories: the first is a dead
end, the second completes the chain.  Used by the Stage 1 sibling
fall-through witness. -/
def siblingRepo : Repo := fun q =>
  if q == "" then Except.ok [⟨"a", "dir", "a1"⟩, ⟨"a", "dir", "a2"⟩]
  else if q == "a1" then Except.ok []
  else if q == "a2" then Except.ok [⟨"b", "dir", "a2/b"⟩]
  else Except.error Fault.notFoundFault

/-- Repository whose root listing holds, in order, a file named "a", a
directory named "w", and two directories named "a".  Used by the
first-match tie-break witness. -/
def firstMatchRepo : Repo := fun q =>
  if q == "" then
    Except.ok [⟨"a", "file", "fa"⟩, ⟨"w", "dir", "w"⟩, ⟨"a", "dir", "p1"⟩, ⟨"a", "dir", "p2"⟩]
  else Except.error Fault.notFoundFault

/-! ## Generic lemmas about the search over an arbitrary listing function -/

/-- List-style induction over a forest, ignoring the node structure. -/
theorem forest_ind (P : FsForest → Prop) (h0 : P FsForest.nil)
    (h1 : ∀ c cs, P cs → P (FsForest.cons c cs)) : ∀ cs, P cs := by
  intro cs
  refine FsForest.rec (motive_1 := fun _ => True) (motive_2 := P)
    (fun _ => trivial) ?_ h0 ?_ cs
  · intro n children _
    trivial
  · intro c cs _ ih
    exact h1 c cs ih

/-- Nested induction over a forest: the hypothesis for a directory node may
use the property on its children forest as well as on the remaining
siblings. -/
theorem forest_nested_ind (P : FsForest → Prop) (h0 : P FsForest.nil)
    (hfile : ∀ n cs, P cs → P (FsForest.cons (FsNode.file n) cs))
    (hdir : ∀ n gcs cs, P gcs → P cs → P (FsForest.cons (FsNode.dir n gcs) cs)) :
    ∀ cs, P cs := by
  intro cs
  refine FsForest.rec
    (motive_1 := fun c => ∀ cs, P cs → P (FsForest.cons c cs))
    (motive_2 := P) ?_ ?_ h0 ?_ cs
  · intro n cs h
    exact hfile n cs h
  · intro n children ih cs h
    exact hdir n children cs ih h
  · intro c cs ih1 ih2
    exact ih1 cs ih2


/-- First-match behaviour of the entry scan: when nothing in the prefix
satisfies the predicate and `e` does, the scan returns `e`. -/
theorem find?_first {α : Type} (p : α → Bool) (pre post : List α) (e : α)
    (hpre : ∀ a ∈ pre, p a = false) (he : p e = true) :
    (pre ++ e :: post).find? p = some e := by
  induction pre with
  | nil => simp [List.find?_cons_of_pos, he]
  | cons a l ih =>
    have ha : p a = false := hpre a (by simp)
    rw [List.cons_append, List.find?_cons_of_neg _ (by simp [ha])]
    exact ih (fun b hb => hpre b (by simp [hb]))

/-- Every successful result of the strict chain follower on a nonempty
segment list is the path of a directory-type entry of some listing. -/
theorem strict_result_entry (repo : Repo) :
    ∀ (rest : List String) (s basePath p : String),
      findStrictSequenceFromPath repo (s :: rest) basePath = some p →
      ∃ q contents e, repo q = Except.ok contents ∧ e ∈ contents ∧
        e.type = "dir" ∧ e.path = p := by
  intro rest
  induction rest with
  | nil =>
    intro s basePath p h
    rw [findStrictSequenceFromPath] at h
    split at h
    next f hq => exact absurd h (by simp)
    next contents hq =>
      split at h
      next hf => exact absurd h (by simp)
      next item hf =>
        rw [findStrictSequenceFromPath] at h
        have hmem := List.mem_of_find?_eq_some hf
        have hcond := List.find?_some hf
        simp only [Bool.and_eq_true, beq_iff_eq] at hcond
        exact ⟨basePath, contents, item, hq, hmem, hcond.1, by simpa using h⟩
  | cons s2 rr ih =>
    intro s basePath p h
    rw [findStrictSequenceFromPath] at h
    split at h
    next f hq => exact absurd h (by simp)
    next contents hq =>
      split at h
      next hf => exact absurd h (by simp)
      next item hf => exact ih s2 item.path p h

/-- Anatomy of a successful Stage 1 scan: some directory-type entry named
like the first segment produced the result, either as its own path when no
segments remained, or as a truthy strict chain result. -/
theorem stage1Scan_eq_some (repo : Repo) (s : String) (remaining : List String) :
    ∀ (entries : List Entry) (r : String),
      stage1Scan repo s remaining entries = some r →
      ∃ e ∈ entries, e.type = "dir" ∧ e.name = s ∧
        ((remaining = [] ∧ r = e.path) ∨
         (findStrictSequenceFromPath repo remaining e.path = some r ∧ r ≠ "")) := by
  intro entries
  induction entries with
  | nil => intro r h; exact absurd h (by simp [stage1Scan])
  | cons item rest ih =>
    intro r h
    rw [stage1Scan] at h
    split at h
    next hc =>
      simp only [Bool.and_eq_true, beq_iff_eq] at hc
      split at h
      next hre =>
        exact ⟨item, by simp, hc.1, hc.2,
          Or.inl ⟨List.isEmpty_iff.mp hre, by simpa using h.symm⟩⟩
      next hre =>
        simp only at h
        split at h
        next ht =>
          refine ⟨item, by simp, hc.1, hc.2, Or.inr ⟨h, ?_⟩⟩
          rw [h] at ht
          simpa [pyTruthy] using ht
        next ht =>
          obtain ⟨e, he, h1, h2, h3⟩ := ih r h
          exact ⟨e, by simp [he], h1, h2, h3⟩
    next hc =>
      obtain ⟨e, he, h1, h2, h3⟩ := ih r h
      exact ⟨e, by simp [he], h1, h2, h3⟩

/-- Anatomy of a successful Stage 2 scan: some directory-type entry's
recursive search produced the (truthy) result. -/
theorem stage2Scan_eq_some (recurse : String → Option String) :
    ∀ (entries : List Entry) (r : String),
      stage2Scan recurse entries = some r →
      ∃ e ∈ entries, e.type = "dir" ∧ recurse e.path = some r ∧ r ≠ "" := by
  intro entries
  induction entries with
  | nil => intro r h; exact absurd h (by simp [stage2Scan])
  | cons item rest ih =>
    intro r h
    rw [stage2Scan] at h
    split at h
    next hc =>
      simp only at h
      split at h
      next ht =>
        refine ⟨item, by simp, by simpa using hc, h, ?_⟩
        rw [h] at ht
        simpa [pyTruthy] using ht
      next ht =>
        obtain ⟨e, he, h1, h2, h3⟩ := ih r h
        exact ⟨e, by simp [he], h1, h2, h3⟩
    next hc =>
      obtain ⟨e, he, h1, h2, h3⟩ := ih r h
      exact ⟨e, by simp [he], h1, h2, h3⟩

/-- Every successful result of the global hunter is the path of a
directory-type entry of some listing. -/
theorem hunt_result_entry (repo : Repo) :
    ∀ (fuel : Nat) (segs : List String) (rootPath p : String),
      findTargetSequenceGlobally repo fuel segs rootPath = some p →
      ∃ q contents e, repo q = Except.ok contents ∧ e ∈ contents ∧
        e.type = "dir" ∧ e.path = p := by
  intro fuel
  induction fuel with
  | zero => intro segs rootPath p h; exact absurd h (by simp [findTargetSequenceGlobally])
  | succ n ih =>
    intro segs rootPath p h
    cases segs with
    | nil => exact absurd h (by simp [findTargetSequenceGlobally])
    | cons s remaining =>
      rw [findTargetSequenceGlobally] at h
      split at h
      next f hq => exact absurd h (by simp)
      next contents hq =>
        split at h
        next r h1 =>
          obtain ⟨e, he, ht, hn, hcase⟩ := stage1Scan_eq_some repo s remaining contents r h1
          have hrp : r = p := by simpa using h
          rcases hcase with ⟨hrem, hre⟩ | ⟨hstrict, hne⟩
          · exact ⟨rootPath, contents, e, hq, he, ht, by rw [← hre, hrp]⟩
          · cases remaining with
            | nil =>
              rw [findStrictSequenceFromPath] at hstrict
              have : e.path = p := by rw [← hrp]; simpa using hstrict
              exact ⟨rootPath, contents, e, hq, he, ht, this⟩
            | cons r0 rr =>
              subst hrp
              exact strict_result_entry repo rr r0 e.path _ hstrict
        next h1 =>
          obtain ⟨e, he, ht, hrec, hne⟩ := stage2Scan_eq_some _ contents p h
          exact ih (s :: remaining) e.path p hrec

/-! ## Unfolding equations for the loops and the hunter -/

theorem stage1Scan_skip (repo : Repo) (s : String) (rem : List String) (item : Entry)
    (rest : List Entry) (h : ¬(item.type = "dir" ∧ item.name = s)) :
    stage1Scan repo s rem (item :: rest) = stage1Scan repo s rem rest := by
  rw [stage1Scan, if_neg]
  simp only [Bool.and_eq_true, beq_iff_eq]
  exact h

theorem stage1Scan_hit_single (repo : Repo) (s : String) (item : Entry) (rest : List Entry)
    (ht : item.type = "dir") (hn : item.name = s) :
    stage1Scan repo s [] (item :: rest) = some item.path := by
  rw [stage1Scan, if_pos (by simp [ht, hn])]
  rfl

theorem stage1Scan_hit_fail (repo : Repo) (s : String) (rem : List String) (item : Entry)
    (rest : List Entry) (ht : item.type = "dir") (hn : item.name = s) (hrem : rem ≠ [])
    (hfail : pyTruthy (findStrictSequenceFromPath repo rem item.path) = false) :
    stage1Scan repo s rem (item :: rest) = stage1Scan repo s rem rest := by
  rw [stage1Scan, if_pos (by simp [ht, hn]),
    if_neg (by simp [List.isEmpty_iff]; exact hrem)]
  simp only [hfail, Bool.false_eq_true, if_false]

theorem stage1Scan_hit_ok (repo : Repo) (s : String) (rem : List String) (item : Entry)
    (rest : List Entry) (ht : item.type = "dir") (hn : item.name = s) (hrem : rem ≠ [])
    (hok : pyTruthy (findStrictSequenceFromPath repo rem item.path) = true) :
    stage1Scan repo s rem (item :: rest) = findStrictSequenceFromPath repo rem item.path := by
  rw [stage1Scan, if_pos (by simp [ht, hn]),
    if_neg (by simp [List.isEmpty_iff]; exact hrem)]
  simp only [hok, if_true]

theorem stage2Scan_skip (recurse : String → Option String) (item : Entry) (rest : List Entry)
    (h : ¬item.type = "dir") :
    stage2Scan recurse (item :: rest) = stage2Scan recurse rest := by
  rw [stage2Scan, if_neg (by simpa using h)]

theorem stage2Scan_fail (recurse : String → Option String) (item : Entry) (rest : List Entry)
    (ht : item.type = "dir") (hfail : pyTruthy (recurse item.path) = false) :
    stage2Scan recurse (item :: rest) = stage2Scan recurse rest := by
  rw [stage2Scan, if_pos (by simp [ht])]
  simp only [hfail, Bool.false_eq_true, if_false]

theorem stage2Scan_ok (recurse : String → Option String) (item : Entry) (rest : List Entry)
    (ht : item.type = "dir") (hok : pyTruthy (recurse item.path) = true) :
    stage2Scan recurse (item :: rest) = recurse item.path := by
  rw [stage2Scan, if_pos (by simp [ht])]
  simp only [hok, if_true]

theorem hunt_listing_error (repo : Repo) (fuel : Nat) (segs : List String) (rootPath : String)
    (f : Fault) (h : repo rootPath = Except.error f) :
    findTargetSequenceGlobally repo fuel segs rootPath = none := by
  cases fuel with
  | zero => rfl
  | succ n =>
    cases segs with
    | nil => rfl
    | cons s rem => rw [findTargetSequenceGlobally, h]

theorem hunt_stage1 (repo : Repo) (fuel : Nat) (s : String) (rem : List String)
    (rootPath r : String) (contents : List Entry) (hq : repo rootPath = Except.ok contents)
    (h1 : stage1Scan repo s rem contents = some r) :
    findTargetSequenceGlobally repo (fuel + 1) (s :: rem) rootPath = some r := by
  rw [findTargetSequenceGlobally, hq]
  simp only [h1]

theorem hunt_stage2 (repo : Repo) (fuel : Nat) (s : String) (rem : List String)
    (rootPath : String) (contents : List Entry) (hq : repo rootPath = Except.ok contents)
    (h1 : stage1Scan repo s rem contents = none) :
    findTargetSequenceGlobally repo (fuel + 1) (s :: rem) rootPath =
      stage2Scan (fun childPath => findTargetSequenceGlobally repo fuel (s :: rem) childPath)
        contents := by
  rw [findTargetSequenceGlobally, hq]
  simp only [h1]

theorem strict_step (repo : Repo) (s : String) (rest : List String) (basePath : String)
    (contents : List Entry) (item : Entry) (hq : repo basePath = Except.ok contents)
    (hf : contents.find? (fun it => it.type == "dir" && it.name == s) = some item) :
    findStrictSequenceFromPath repo (s :: rest) basePath =
      findStrictSequenceFromPath repo rest item.path := by
  rw [findStrictSequenceFromPath, hq]
  simp only [hf]

theorem strict_no_match (repo : Repo) (s : String) (rest : List String) (basePath : String)
    (contents : List Entry) (hq : repo basePath = Except.ok contents)
    (hf : contents.find? (fun it => it.type == "dir" && it.name == s) = none) :
    findStrictSequenceFromPath repo (s :: rest) basePath = none := by
  rw [findStrictSequenceFromPath, hq]
  simp only [hf]

/-! ## Claims C3, C4, C5, C6, C9: behaviour over an arbitrary listing function -/

/-- C5: calling the strict chain follower with an empty remaining-segments
list returns the starting path unchanged, for every repository — in
particular no directory listing can influence the result. -/
theorem C5_strict_empty_segments (repo : Repo) (startingPath : String) :
    findStrictSequenceFromPath repo [] startingPath = some startingPath := rfl

/-- C9: calling the global hunter with an empty segment sequence returns
NotFound (None) for every repository, every fuel and every root, without
consulting any listing and without raising. -/
theorem C9_hunt_empty_segments (repo : Repo) (fuel : Nat) (searchRootPath : String) :
    findTargetSequenceGlobally repo fuel [] searchRootPath = none := by
  cases fuel <;> rfl

/-- C3: a listing fault (not-found or transient) is converted to a NotFound
result at the point of occurrence: whenever the listing of a path faults,
both the strict chain follower run from that path on a nonempty segment
list and the global hunter run from that path return `none`.  Both search
functions are total with result type path-or-`none`, so no fault value ever
reaches a caller. -/
theorem C3_fault_converts_to_notFound (repo : Repo) (q : String) (f : Fault)
    (s : String) (rest segs : List String) (fuel : Nat)
    (h : repo q = Except.error f) :
    findStrictSequenceFromPath repo (s :: rest) q = none ∧
    findTargetSequenceGlobally repo fuel segs q = none := by
  refine ⟨?_, hunt_listing_error repo fuel segs q f h⟩
  rw [findStrictSequenceFromPath, h]

/-- Witness for C3 on a repository whose every listing raises the
transient fault. -/
theorem C3_fault_converts_to_notFound_witness :
    faultyRepo "" = Except.error Fault.transientFault ∧
    (findStrictSequenceFromPath faultyRepo ["a"] "" = none ∧
     findTargetSequenceGlobally faultyRepo 5 ["a", "b"] "" = none) :=
  ⟨rfl, C3_fault_converts_to_notFound faultyRepo "" Fault.transientFault "a" [] ["a", "b"] 5 rfl⟩

/-- C6: at each step of the strict chain follower, when the listing holds a
directory entry named like the current segment, the follower advances using
the first such entry in listing order (entries before it match neither name
nor type). -/
theorem C6_strict_first_match (repo : Repo) (basePath s : String) (rest : List String)
    (pre post : List Entry) (e : Entry)
    (hrepo : repo basePath = Except.ok (pre ++ e :: post))
    (htype : e.type = "dir") (hname : e.name = s)
    (hpre : ∀ e2 ∈ pre, ¬(e2.type = "dir" ∧ e2.name = s)) :
    findStrictSequenceFromPath repo (s :: rest) basePath =
      findStrictSequenceFromPath repo rest e.path := by
  have hfind : (pre ++ e :: post).find? (fun it => it.type == "dir" && it.name == s) =
      some e := by
    refine find?_first _ pre post e (fun a ha => ?_) (by simp [htype, hname])
    rw [Bool.eq_false_iff]
    intro hcontra
    exact hpre a ha (by simpa [Bool.and_eq_true, beq_iff_eq] using hcontra)
  exact strict_step repo s rest basePath (pre ++ e :: post) e hrepo hfind

/-- Witness for C6: the root listing holds a file named "a", a directory
named "w", and two directories named "a"; the follower advances through the
first directory named "a" (path "p1"), not the file and not the later
duplicate. -/
theorem C6_strict_first_match_witness :
    firstMatchRepo "" =
      Except.ok [⟨"a", "file", "fa"⟩, ⟨"w", "dir", "w"⟩, ⟨"a", "dir", "p1"⟩,
        ⟨"a", "dir", "p2"⟩] ∧
    findStrictSequenceFromPath firstMatchRepo ["a"] "" =
      findStrictSequenceFromPath firstMatchRepo [] "p1" :=
  ⟨rfl,
    C6_strict_first_match firstMatchRepo "" "a" []
      [⟨"a", "file", "fa"⟩, ⟨"w", "dir", "w"⟩] [⟨"a", "dir", "p2"⟩] ⟨"a", "dir", "p1"⟩
      rfl rfl rfl (by decide)⟩

/-- C4: when the root listing holds two sibling directories both named like
the first segment, the first of which does not complete the remaining
chain while the second does, Stage 1 continues past the failed first
sibling, tries the second, and returns the completed path.  The statement
holds for every fuel value, including fuel 1 where Stage 2 recursion
returns nothing, which shows the success is produced by Stage 1. -/
theorem C4_stage1_scans_all_siblings (repo : Repo) (searchRootPath s p r0 : String)
    (rr : List String) (e1 e2 : Entry) (fuel : Nat)
    (hrepo : repo searchRootPath = Except.ok [e1, e2])
    (h1t : e1.type = "dir") (h1n : e1.name = s)
    (h2t : e2.type = "dir") (h2n : e2.name = s)
    (hfail : pyTruthy (findStrictSequenceFromPath repo (r0 :: rr) e1.path) = false)
    (hok : findStrictSequenceFromPath repo (r0 :: rr) e2.path = some p) (hp : p ≠ "") :
    findTargetSequenceGlobally repo (fuel + 1) (s :: r0 :: rr) searchRootPath = some p := by
  have htruthy : pyTruthy (findStrictSequenceFromPath repo (r0 :: rr) e2.path) = true := by
    rw [hok]
    simpa [pyTruthy] using hp
  have hs1 : stage1Scan repo s (r0 :: rr) [e1, e2] = some p := by
    rw [stage1Scan_hit_fail repo s (r0 :: rr) e1 [e2] h1t h1n (by simp) hfail,
      stage1Scan_hit_ok repo s (r0 :: rr) e2 [] h2t h2n (by simp) htruthy]
    exact hok
  exact hunt_stage1 repo fuel s (r0 :: rr) searchRootPath p [e1, e2] hrepo hs1

/-- Witness for C4 on the two-sibling repository: the first "a" is empty
and dead-ends, the second completes "a"/"b"; the hunter returns the path
through the second sibling even with fuel 1. -/
theorem C4_stage1_scans_all_siblings_witness :
    siblingRepo "" = Except.ok [⟨"a", "dir", "a1"⟩, ⟨"a", "dir", "a2"⟩] ∧
    pyTruthy (findStrictSequenceFromPath siblingRepo ["b"] "a1") = false ∧
    findStrictSequenceFromPath siblingRepo ["b"] "a2" = some "a2/b" ∧
    findTargetSequenceGlobally siblingRepo 1 ["a", "b"] "" = some "a2/b" :=
  ⟨rfl, by decide, by decide,
    C4_stage1_scans_all_siblings siblingRepo "" "a" "a2/b" "b" []
      ⟨"a", "dir", "a1"⟩ ⟨"a", "dir", "a2"⟩ 0 rfl rfl rfl rfl rfl
      (by decide) (by decide) (by decide)⟩

/-! ## Lemmas about the tree model -/

theorem listInfix_refl {A : Type} (l : List A) : listInfix l l :=
  ⟨[], [], by simp⟩

theorem listInfix_cons_right {A : Type} (a : A) (l L : List A) (h : listInfix l L) :
    listInfix l (a :: L) := by
  obtain ⟨u, v, huv⟩ := h
  exact ⟨a :: u, v, by simp [huv]⟩

theorem listInfix_trans {A : Type} {l m L : List A} (h1 : listInfix l m)
    (h2 : listInfix m L) : listInfix l L := by
  obtain ⟨u1, v1, h1⟩ := h1
  obtain ⟨u2, v2, h2⟩ := h2
  subst h1
  exact ⟨u2 ++ u1, v1 ++ v2, by simp only [← h2, List.append_assoc]⟩

theorem listInfix_tail {A : Type} {a : A} {l L : List A} (h : listInfix (a :: l) L) :
    listInfix l L := by
  obtain ⟨u, v, huv⟩ := h
  exact ⟨u ++ [a], v, by simp only [← huv, List.append_assoc, List.cons_append,
    List.nil_append]⟩

theorem listInfix_append_left {A : Type} (u : List A) {l L : List A} (h : listInfix l L) :
    listInfix l (u ++ L) := by
  obtain ⟨u1, v1, h1⟩ := h
  exact ⟨u ++ u1, v1, by simp [← h1, List.append_assoc]⟩

theorem listInfix_of_append_right {A : Type} (l v : List A) : listInfix l (l ++ v) :=
  ⟨[], v, by simp⟩

theorem listInfix_sublist {A : Type} {l L : List A} (h : listInfix l L) :
    List.Sublist l L := by
  obtain ⟨u, v, huv⟩ := h
  subst huv
  exact (List.sublist_append_left l v).trans (List.sublist_append_right u (l ++ v))

theorem listInfix_subset {A : Type} {l L : List A} (h : listInfix l L) {a : A}
    (ha : a ∈ l) : a ∈ L :=
  (listInfix_sublist h).subset ha

theorem listInfix_keys_mem {l L : List (String × List Entry)} (h : listInfix l L)
    {k : String} (hk : k ∈ l.map Prod.fst) : k ∈ L.map Prod.fst :=
  ((listInfix_sublist h).map Prod.fst).subset hk

/-- Every node of a forest contributes its entry to the listing. -/
theorem entry_mem_entriesOf (base : String) (c : FsNode) :
    ∀ cs, ForestMem c cs → entryOfNode base c ∈ entriesOf base cs := by
  intro cs h
  induction h with
  | head cs => simp [entriesOf]
  | tail d cs _ ih => simp [entriesOf, ih]

/-- Every entry of a listing is the entry of some node of the forest. -/
theorem mem_entriesOf (base : String) :
    ∀ cs, ∀ e ∈ entriesOf base cs, ∃ c, ForestMem c cs ∧ e = entryOfNode base c := by
  refine forest_ind _ ?_ ?_
  · intro e he
    simp [entriesOf] at he
  · intro c cs ih e he
    rw [entriesOf] at he
    rcases List.mem_cons.mp he with h | h
    · exact ⟨c, ForestMem.head cs, h⟩
    · obtain ⟨d, hd, he⟩ := ih e h
      exact ⟨d, ForestMem.tail c cs hd, he⟩

/-- Directory-type entries of a listing come from directory nodes, and their
path is the slash-join of the base path and their name. -/
theorem dir_entry_anatomy (base : String) (cs : FsForest) (e : Entry)
    (he : e ∈ entriesOf base cs) (ht : e.type = "dir") :
    ∃ n gcs, ForestMem (FsNode.dir n gcs) cs ∧ e.name = n ∧ e.path = joinPath base n := by
  obtain ⟨c, hc, hec⟩ := mem_entriesOf base cs e he
  cases c with
  | file n => rw [hec] at ht; simp [entryOfNode] at ht
  | dir n gcs => exact ⟨n, gcs, hc, by rw [hec]; rfl, by rw [hec]; rfl⟩

/-- The entry of a directory node has type "dir", its name, and the joined
path. -/
theorem dir_entryOfNode (base n : String) (gcs : FsForest) :
    entryOfNode base (FsNode.dir n gcs) =
      { name := n, type := "dir", path := joinPath base n } := rfl

/-- A directory child's own table pair occurs in the forest table. -/
theorem child_pair_mem (base n : String) (gcs : FsForest) :
    ∀ cs, ForestMem (FsNode.dir n gcs) cs →
      (joinPath base n, entriesOf (joinPath base n) gcs) ∈ forestTable base cs := by
  intro cs h
  induction h with
  | head cs => simp [forestTable, nodeTable]
  | tail d cs _ ih => simp [forestTable, ih]

/-- The whole table block of a directory child (its own pair followed by
the table of its subtree) occurs contiguously in the forest table. -/
theorem child_table_seg (base n : String) (gcs : FsForest) :
    ∀ cs, ForestMem (FsNode.dir n gcs) cs →
      listInfix
        ((joinPath base n, entriesOf (joinPath base n) gcs) :: forestTable (joinPath base n) gcs)
        (forestTable base cs) := by
  intro cs h
  induction h with
  | head cs =>
    rw [forestTable, nodeTable]
    exact ⟨[], forestTable base cs, by simp⟩
  | tail d cs _ ih =>
    rw [forestTable]
    exact listInfix_append_left (nodeTable base d) ih

/-- The table block of a reachable directory occurs contiguously in the
repository table, and its subtree table inside the root forest table. -/
theorem reach_table_seg (root : FsForest) (base : String) (cs : FsForest)
    (h : Reach root base cs) :
    listInfix ((base, entriesOf base cs) :: forestTable base cs) (repoTable root) ∧
    listInfix (forestTable base cs) (forestTable "" root) := by
  induction h with
  | top => exact ⟨listInfix_refl _, listInfix_refl _⟩
  | child hr hm ih =>
    rename_i base cs n gcs
    have hblock := child_table_seg base n gcs cs hm
    have h2 : listInfix (forestTable base cs) (forestTable "" root) := ih.2
    constructor
    · exact listInfix_cons_right _ _ _ (listInfix_trans hblock h2)
    · exact listInfix_trans (listInfix_tail hblock) h2

/-- The pair of a reachable directory is in the repository table. -/
theorem reach_pair_mem (root : FsForest) (base : String) (cs : FsForest)
    (h : Reach root base cs) : (base, entriesOf base cs) ∈ repoTable root :=
  listInfix_subset (reach_table_seg root base cs h).1 (by simp)

theorem lookupPath_mem (k : String) (v : List Entry) :
    ∀ L, lookupPath k L = some v → (k, v) ∈ L := by
  intro L
  induction L with
  | nil => intro h; simp [lookupPath] at h
  | cons kv rest ih =>
    intro h
    obtain ⟨k0, v0⟩ := kv
    rw [lookupPath] at h
    by_cases hk : k0 == k
    · rw [if_pos hk] at h
      have : k0 = k := by simpa using hk
      simp only [Option.some.injEq] at h
      simp [this, h]
    · rw [if_neg hk] at h
      exact List.mem_cons_of_mem _ (ih h)

theorem lookupPath_eq_of_nodup (k : String) (v : List Entry) :
    ∀ L, List.Nodup (L.map Prod.fst) → (k, v) ∈ L → lookupPath k L = some v := by
  intro L
  induction L with
  | nil => intro _ h; simp at h
  | cons kv rest ih =>
    intro hnd h
    obtain ⟨k0, v0⟩ := kv
    rw [List.map_cons, List.nodup_cons] at hnd
    rw [lookupPath]
    rcases List.mem_cons.mp h with h | h
    · have hk : k = k0 := by simpa using congrArg Prod.fst h
      have hv : v = v0 := by simpa using congrArg Prod.snd h
      subst hk
      subst hv
      rw [if_pos (by simp)]
    · by_cases hk : k0 == k
      · exfalso
        have hkk : k0 = k := by simpa using hk
        subst hkk
        exact hnd.1 (by simpa using List.mem_map_of_mem Prod.fst h)
      · rw [if_neg hk]
        exact ih hnd.2 h

/-- For a well-formed tree, the listing at a reachable directory path is
exactly the entries of its children. -/
theorem reach_listing (root : FsForest) (base : String) (cs : FsForest)
    (hwf : wfTree root) (h : Reach root base cs) :
    treeRepo root base = Except.ok (entriesOf base cs) := by
  have := lookupPath_eq_of_nodup base (entriesOf base cs) (repoTable root) hwf
    (reach_pair_mem root base cs h)
  rw [treeRepo]
  rw [this]

/-- For a well-formed tree, keys of a reachable subtree table are never the
empty root path. -/
theorem reach_key_ne_empty (root : FsForest) (base : String) (cs : FsForest)
    (hwf : wfTree root) (h : Reach root base cs) (k : String)
    (hk : k ∈ (forestTable base cs).map Prod.fst) : k ≠ "" := by
  have hsub := (reach_table_seg root base cs h).2
  have hkroot : k ∈ (forestTable "" root).map Prod.fst := listInfix_keys_mem hsub hk
  intro hke
  subst hke
  rw [wfTree, repoTable, List.map_cons, List.nodup_cons] at hwf
  exact hwf.1 hkroot

theorem dirChildren_mem (s : String) :
    ∀ cs gcs, gcs ∈ dirChildren s cs ↔ ForestMem (FsNode.dir s gcs) cs := by
  refine forest_ind _ ?_ ?_
  · intro gcs
    constructor
    · intro h
      simp [dirChildren] at h
    · intro h
      cases h
  · intro c cs ih gcs
    cases c with
    | file n =>
      rw [dirChildren]
      constructor
      · intro h
        exact ForestMem.tail _ _ ((ih gcs).mp h)
      · intro h
        cases h with
        | tail d cs h => exact (ih gcs).mpr h
    | dir n g2 =>
      rw [dirChildren]
      constructor
      · intro h
        rcases List.mem_append.mp h with h | h
        · by_cases hn : (n == s) = true
          · rw [if_pos hn] at h
            simp only [List.mem_singleton] at h
            subst h
            have : n = s := by simpa using hn
            subst this
            exact ForestMem.head cs
          · rw [if_neg hn] at h
            simp at h
        · exact ForestMem.tail _ _ ((ih gcs).mp h)
      · intro h
        cases h with
        | head cs =>
          refine List.mem_append.mpr (Or.inl ?_)
          rw [if_pos (by simp)]
          simp
        | tail d cs h =>
          exact List.mem_append.mpr (Or.inr ((ih gcs).mpr h))

theorem chainEnds_mem (s : String) (rest : List String) (cs : FsForest) (base q : String) :
    q ∈ chainEnds (s :: rest) cs base ↔
      ∃ gcs, ForestMem (FsNode.dir s gcs) cs ∧ q ∈ chainEnds rest gcs (joinPath base s) := by
  rw [chainEnds]
  simp only [List.mem_flatten, List.mem_map]
  constructor
  · rintro ⟨l, ⟨gcs, hg, rfl⟩, hq⟩
    exact ⟨gcs, (dirChildren_mem s cs gcs).mp hg, hq⟩
  · rintro ⟨gcs, hg, hq⟩
    exact ⟨_, ⟨gcs, (dirChildren_mem s cs gcs).mpr hg, rfl⟩, hq⟩

theorem deepEnds_mem (segs : List String) (base q : String) :
    ∀ cs, q ∈ deepEnds segs base cs ↔
      ∃ n gcs, ForestMem (FsNode.dir n gcs) cs ∧
        q ∈ forestEnds segs gcs (joinPath base n) := by
  refine forest_ind _ ?_ ?_
  · constructor
    · intro h
      simp [deepEnds] at h
    · rintro ⟨n, gcs, h, _⟩
      cases h
  · intro c cs ih
    cases c with
    | file n =>
      rw [deepEnds, nodeEnds]
      simp only [List.nil_append]
      rw [ih]
      constructor
      · rintro ⟨n2, gcs, h, hq⟩
        exact ⟨n2, gcs, ForestMem.tail _ _ h, hq⟩
      · rintro ⟨n2, gcs, h, hq⟩
        cases h with
        | tail d cs h => exact ⟨n2, gcs, h, hq⟩
    | dir n g2 =>
      rw [deepEnds, nodeEnds]
      constructor
      · intro hq
        rcases List.mem_append.mp hq with hq | hq
        · exact ⟨n, g2, ForestMem.head cs, hq⟩
        · obtain ⟨n2, gcs, h, hq⟩ := ih.mp hq
          exact ⟨n2, gcs, ForestMem.tail _ _ h, hq⟩
      · rintro ⟨n2, gcs, h, hq⟩
        cases h with
        | head cs => exact List.mem_append.mpr (Or.inl hq)
        | tail d cs h => exact List.mem_append.mpr (Or.inr (ih.mpr ⟨n2, gcs, h, hq⟩))

theorem chainEnds_subset_keys :
    ∀ (rest : List String) (s : String) (cs : FsForest) (base q : String),
      q ∈ chainEnds (s :: rest) cs base → q ∈ (forestTable base cs).map Prod.fst := by
  intro rest
  induction rest with
  | nil =>
    intro s cs base q hq
    obtain ⟨gcs, hm, hq⟩ := (chainEnds_mem s [] cs base q).mp hq
    rw [chainEnds] at hq
    simp only [List.mem_singleton] at hq
    subst hq
    simpa using List.mem_map_of_mem Prod.fst (child_pair_mem base s gcs cs hm)
  | cons s2 r2 ih =>
    intro s cs base q hq
    obtain ⟨gcs, hm, hq⟩ := (chainEnds_mem s (s2 :: r2) cs base q).mp hq
    have hk := ih s2 gcs (joinPath base s) q hq
    have hinf := listInfix_tail (child_table_seg base s gcs cs hm)
    exact listInfix_keys_mem hinf hk

theorem child_depth (n : String) (gcs : FsForest) :
    ∀ cs, ForestMem (FsNode.dir n gcs) cs → forestDepth gcs < forestDepth cs := by
  intro cs h
  induction h with
  | head cs =>
    rw [forestDepth, nodeDepth]
    exact lt_max_iff.mpr (Or.inl (Nat.lt_succ_self _))
  | tail d cs _ ih =>
    rw [forestDepth]
    exact lt_max_iff.mpr (Or.inr ih)

/-- Soundness of the strict chain follower over a well-formed tree: a
successful result is a chain completion path. -/
theorem strict_tree_sound (root : FsForest) (hwf : wfTree root) :
    ∀ (segs : List String) (base : String) (cs : FsForest) (p : String),
      Reach root base cs →
      findStrictSequenceFromPath (treeRepo root) segs base = some p →
      p ∈ chainEnds segs cs base := by
  intro segs
  induction segs with
  | nil =>
    intro base cs p hr h
    rw [findStrictSequenceFromPath] at h
    rw [chainEnds]
    simp only [Option.some.injEq] at h
    simp [h]
  | cons s rest ih =>
    intro base cs p hr h
    have hlist := reach_listing root base cs hwf hr
    cases hf : (entriesOf base cs).find? (fun it => it.type == "dir" && it.name == s) with
    | none =>
      rw [strict_no_match (treeRepo root) s rest base _ hlist hf] at h
      exact absurd h (by simp)
    | some item =>
      rw [strict_step (treeRepo root) s rest base _ item hlist hf] at h
      have hcond := List.find?_some hf
      have hmem := List.mem_of_find?_eq_some hf
      simp only [Bool.and_eq_true, beq_iff_eq] at hcond
      obtain ⟨n2, gcs, hm, hname, hpath⟩ := dir_entry_anatomy base cs item hmem hcond.1
      have hn2 : s = n2 := by rw [← hcond.2, hname]
      subst hn2
      rw [hpath] at h
      exact (chainEnds_mem s rest cs base p).mpr
        ⟨gcs, hm, ih (joinPath base s) gcs p (Reach.child hr hm) h⟩

/-- Completeness of the strict chain follower over a well-formed tree: any
chain completion path is returned. -/
theorem strict_tree_complete (root : FsForest) (hwf : wfTree root) :
    ∀ (segs : List String) (base : String) (cs : FsForest) (p : String),
      Reach root base cs → p ∈ chainEnds segs cs base →
      findStrictSequenceFromPath (treeRepo root) segs base = some p := by
  intro segs
  induction segs with
  | nil =>
    intro base cs p hr hp
    rw [chainEnds] at hp
    simp only [List.mem_singleton] at hp
    subst hp
    rfl
  | cons s rest ih =>
    intro base cs p hr hp
    obtain ⟨gcs, hm, hp⟩ := (chainEnds_mem s rest cs base p).mp hp
    have hlist := reach_listing root base cs hwf hr
    have hsome : ((entriesOf base cs).find?
        (fun it => it.type == "dir" && it.name == s)).isSome := by
      rw [List.find?_isSome]
      exact ⟨entryOfNode base (FsNode.dir s gcs), entry_mem_entriesOf base _ cs hm,
        by rw [dir_entryOfNode]; simp⟩
    obtain ⟨item, hf⟩ := Option.isSome_iff_exists.mp hsome
    have hcond := List.find?_some hf
    have hmem := List.mem_of_find?_eq_some hf
    simp only [Bool.and_eq_true, beq_iff_eq] at hcond
    obtain ⟨n2, g2, hm2, hname2, hpath2⟩ := dir_entry_anatomy base cs item hmem hcond.1
    have hn2 : s = n2 := by rw [← hcond.2, hname2]
    subst hn2
    rw [strict_step (treeRepo root) s rest base _ item hlist hf, hpath2]
    exact ih (joinPath base s) gcs p (Reach.child hr hm) hp

/-- Completeness of the Stage 1 scan: when every directory entry named like
the first segment shares one common path and that path's outcome is truthy,
the scan returns that outcome. -/
theorem stage1Scan_complete (repo : Repo) (s : String) (rem : List String)
    (commonPath : String) (res : Option String) (hres : pyTruthy res = true)
    (houtcome : (if rem.isEmpty then some commonPath
      else findStrictSequenceFromPath repo rem commonPath) = res) :
    ∀ entries : List Entry,
      (∃ e ∈ entries, e.type = "dir" ∧ e.name = s) →
      (∀ e ∈ entries, e.type = "dir" → e.name = s → e.path = commonPath) →
      stage1Scan repo s rem entries = res := by
  intro entries
  induction entries with
  | nil =>
    rintro ⟨e, he, _⟩ _
    simp at he
  | cons item rest ih =>
    rintro ⟨e, he, het, hen⟩ hall
    by_cases hc : item.type = "dir" ∧ item.name = s
    · have hpath : item.path = commonPath := hall item (by simp) hc.1 hc.2
      by_cases hrem : rem.isEmpty
      · rw [List.isEmpty_iff.mp hrem] at houtcome ⊢
        rw [stage1Scan_hit_single repo s item rest hc.1 hc.2, hpath]
        simpa using houtcome
      · have hne : rem ≠ [] := by simpa [List.isEmpty_iff] using hrem
        rw [if_neg hrem] at houtcome
        have hok : pyTruthy (findStrictSequenceFromPath repo rem item.path) = true := by
          rw [hpath, houtcome]
          exact hres
        rw [stage1Scan_hit_ok repo s rem item rest hc.1 hc.2 hne hok, hpath, houtcome]
    · rw [stage1Scan_skip repo s rem item rest hc]
      apply ih
      · refine ⟨e, ?_, het, hen⟩
        rcases List.mem_cons.mp he with rfl | h
        · exact absurd ⟨het, hen⟩ hc
        · exact h
      · intro e2 h2 ht2 hn2
        exact hall e2 (by simp [h2]) ht2 hn2

/-- Completeness of the Stage 2 scan: when some directory entry's recursive
outcome is truthy, the scan result is truthy. -/
theorem stage2Scan_complete (recurse : String → Option String) :
    ∀ (entries : List Entry) (e : Entry), e ∈ entries → e.type = "dir" →
      pyTruthy (recurse e.path) = true →
      pyTruthy (stage2Scan recurse entries) = true := by
  intro entries
  induction entries with
  | nil =>
    intro e he
    simp at he
  | cons item rest ih =>
    intro e he het htr
    by_cases hit : item.type = "dir"
    · by_cases ht : pyTruthy (recurse item.path) = true
      · rw [stage2Scan_ok recurse item rest hit ht]
        exact ht
      · rw [stage2Scan_fail recurse item rest hit (by simpa using ht)]
        rcases List.mem_cons.mp he with rfl | h
        · exact absurd htr ht
        · exact ih e h het htr
    · rw [stage2Scan_skip recurse item rest hit]
      rcases List.mem_cons.mp he with rfl | h
      · exact absurd het hit
      · exact ih e h het htr

/-- Soundness of the global hunter over a well-formed tree: a successful
result is a completion path of the sequence among the reachable forest, and
it is a directory path of that subtree (hence never the empty string). -/
theorem hunt_tree_sound (root : FsForest) (hwf : wfTree root) :
    ∀ (fuel : Nat) (segs : List String) (base : String) (cs : FsForest) (p : String),
      Reach root base cs →
      findTargetSequenceGlobally (treeRepo root) fuel segs base = some p →
      p ∈ forestEnds segs cs base ∧ p ∈ (forestTable base cs).map Prod.fst := by
  intro fuel
  induction fuel with
  | zero =>
    intro segs base cs p _ h
    exact absurd h (by simp [findTargetSequenceGlobally])
  | succ n ih =>
    intro segs base cs p hr h
    cases segs with
    | nil => exact absurd h (by simp [findTargetSequenceGlobally])
    | cons s rem =>
      have hlist := reach_listing root base cs hwf hr
      cases h1 : stage1Scan (treeRepo root) s rem (entriesOf base cs) with
      | some r =>
        rw [hunt_stage1 (treeRepo root) n s rem base r _ hlist h1] at h
        have hrp : r = p := by simpa using h
        subst hrp
        obtain ⟨e, he, het, hen, hcase⟩ := stage1Scan_eq_some (treeRepo root) s rem _ r h1
        obtain ⟨n2, gcs, hm, hname, hpath⟩ := dir_entry_anatomy base cs e he het
        have hn2 : s = n2 := by rw [← hen, hname]
        subst hn2
        rcases hcase with ⟨hrem, hre⟩ | ⟨hstrict, hne⟩
        · subst hrem
          constructor
          · refine List.mem_append.mpr (Or.inl ?_)
            refine (chainEnds_mem s [] cs base _).mpr ⟨gcs, hm, ?_⟩
            rw [chainEnds]
            simp [hre, hpath]
          · rw [hre, hpath]
            simpa using List.mem_map_of_mem Prod.fst (child_pair_mem base s gcs cs hm)
        · rw [hpath] at hstrict
          have hsound := strict_tree_sound root hwf rem (joinPath base s) gcs r
            (Reach.child hr hm) hstrict
          have hchain : r ∈ chainEnds (s :: rem) cs base :=
            (chainEnds_mem s rem cs base r).mpr ⟨gcs, hm, hsound⟩
          exact ⟨List.mem_append.mpr (Or.inl hchain),
            chainEnds_subset_keys rem s cs base r hchain⟩
      | none =>
        rw [hunt_stage2 (treeRepo root) n s rem base _ hlist h1] at h
        obtain ⟨e, he, het, hrec, hne⟩ := stage2Scan_eq_some _ _ p h
        obtain ⟨n2, gcs, hm, hname, hpath⟩ := dir_entry_anatomy base cs e he het
        rw [hpath] at hrec
        obtain ⟨hends, hkeys⟩ := ih (s :: rem) (joinPath base n2) gcs p
          (Reach.child hr hm) hrec
        constructor
        · exact List.mem_append.mpr
            (Or.inr ((deepEnds_mem (s :: rem) base p cs).mpr ⟨n2, gcs, hm, hends⟩))
        · exact listInfix_keys_mem (listInfix_tail (child_table_seg base n2 gcs cs hm)) hkeys

/-- Completeness of the global hunter over a well-formed tree: with fuel
beyond the forest depth, the search succeeds (with a truthy result)
whenever the sequence completes somewhere in the reachable forest. -/
theorem hunt_tree_complete (root : FsForest) (hwf : wfTree root) :
    ∀ (fuel : Nat) (s : String) (rem : List String) (base : String) (cs : FsForest)
      (p : String), Reach root base cs → forestDepth cs < fuel →
      p ∈ forestEnds (s :: rem) cs base →
      pyTruthy (findTargetSequenceGlobally (treeRepo root) fuel (s :: rem) base) = true := by
  intro fuel
  induction fuel with
  | zero =>
    intro s rem base cs p _ hd _
    omega
  | succ n ih =>
    intro s rem base cs p hr hd hp
    have hlist := reach_listing root base cs hwf hr
    cases h1 : stage1Scan (treeRepo root) s rem (entriesOf base cs) with
    | some r =>
      rw [hunt_stage1 (treeRepo root) n s rem base r _ hlist h1]
      obtain ⟨e, he, het, hen, hcase⟩ := stage1Scan_eq_some (treeRepo root) s rem _ r h1
      obtain ⟨n2, gcs, hm, hname, hpath⟩ := dir_entry_anatomy base cs e he het
      have hn2 : s = n2 := by rw [← hen, hname]
      subst hn2
      rcases hcase with ⟨hrem, hre⟩ | ⟨hstrict, hne⟩
      · have hkey : joinPath base s ∈ (forestTable base cs).map Prod.fst := by
          simpa using List.mem_map_of_mem Prod.fst (child_pair_mem base s gcs cs hm)
        have hne2 := reach_key_ne_empty root base cs hwf hr _ hkey
        rw [hre, hpath]
        simpa [pyTruthy] using hne2
      · simpa [pyTruthy] using hne
    | none =>
      rw [hunt_stage2 (treeRepo root) n s rem base _ hlist h1]
      rcases List.mem_append.mp hp with hpc | hpd
      · exfalso
        obtain ⟨gcs, hm, hpcc⟩ := (chainEnds_mem s rem cs base p).mp hpc
        have hexist : ∃ e ∈ entriesOf base cs, e.type = "dir" ∧ e.name = s :=
          ⟨entryOfNode base (FsNode.dir s gcs), entry_mem_entriesOf base _ cs hm,
            by rw [dir_entryOfNode], by rw [dir_entryOfNode]⟩
        have huniform : ∀ e ∈ entriesOf base cs, e.type = "dir" → e.name = s →
            e.path = joinPath base s := by
          intro e he het hen
          obtain ⟨n2, g2, hm2, hname2, hpath2⟩ := dir_entry_anatomy base cs e he het
          rw [hpath2, ← hname2, hen]
        cases hrem : rem with
        | nil =>
          subst hrem
          have hkey : joinPath base s ∈ (forestTable base cs).map Prod.fst := by
            simpa using List.mem_map_of_mem Prod.fst (child_pair_mem base s gcs cs hm)
          have hne2 := reach_key_ne_empty root base cs hwf hr _ hkey
          have := stage1Scan_complete (treeRepo root) s [] (joinPath base s)
            (some (joinPath base s)) (by simpa [pyTruthy] using hne2) (by simp)
            (entriesOf base cs) hexist huniform
          rw [h1] at this
          exact absurd this (by simp)
        | cons r0 rr =>
          subst hrem
          have hkeyp : p ∈ (forestTable base cs).map Prod.fst :=
            chainEnds_subset_keys (r0 :: rr) s cs base p hpc
          have hnep := reach_key_ne_empty root base cs hwf hr _ hkeyp
          have hstrict := strict_tree_complete root hwf (r0 :: rr) (joinPath base s) gcs p
            (Reach.child hr hm) hpcc
          have := stage1Scan_complete (treeRepo root) s (r0 :: rr) (joinPath base s)
            (some p) (by simpa [pyTruthy] using hnep)
            (by simpa using hstrict)
            (entriesOf base cs) hexist huniform
          rw [h1] at this
          exact absurd this (by simp)
      · obtain ⟨n2, gcs, hm, hpf⟩ := (deepEnds_mem (s :: rem) base p cs).mp hpd
        have hdepth : forestDepth gcs < n :=
          lt_of_lt_of_le (child_depth n2 gcs cs hm) (Nat.lt_succ_iff.mp hd)
        have htr := ih s rem (joinPath base n2) gcs p (Reach.child hr hm) hdepth hpf
        exact stage2Scan_complete _ (entriesOf base cs)
          (entryOfNode base (FsNode.dir n2 gcs)) (entry_mem_entriesOf base _ cs hm)
          (by rw [dir_entryOfNode]) (by rw [dir_entryOfNode]; exact htr)

/-- The Stage 2 scan only depends on the recursion outcomes at the listed
directory entries. -/
theorem stage2Scan_congr (rec1 rec2 : String → Option String) :
    ∀ entries : List Entry,
      (∀ e ∈ entries, e.type = "dir" → rec1 e.path = rec2 e.path) →
      stage2Scan rec1 entries = stage2Scan rec2 entries := by
  intro entries
  induction entries with
  | nil => intro _; rfl
  | cons item rest ih =>
    intro hall
    by_cases hit : item.type = "dir"
    · have heq := hall item (by simp) hit
      cases ht2 : pyTruthy (rec2 item.path) with
      | false =>
        rw [stage2Scan_fail rec1 item rest hit (by rw [heq]; exact ht2),
          stage2Scan_fail rec2 item rest hit ht2]
        exact ih (fun e he het => hall e (by simp [he]) het)
      | true =>
        rw [stage2Scan_ok rec1 item rest hit (by rw [heq]; exact ht2),
          stage2Scan_ok rec2 item rest hit ht2, heq]
    · rw [stage2Scan_skip rec1 item rest hit, stage2Scan_skip rec2 item rest hit]
      exact ih (fun e he het => hall e (by simp [he]) het)

/-- Fuel stability of the global hunter over a well-formed tree: any two
fuel values strictly above the reachable forest depth give the same result,
because every Stage 2 recursion strictly descends into a child directory. -/
theorem hunt_fuel_stable (root : FsForest) (hwf : wfTree root) :
    ∀ (f1 f2 : Nat) (segs : List String) (base : String) (cs : FsForest),
      Reach root base cs → forestDepth cs < f1 → forestDepth cs < f2 →
      findTargetSequenceGlobally (treeRepo root) f1 segs base =
        findTargetSequenceGlobally (treeRepo root) f2 segs base := by
  intro f1
  induction f1 with
  | zero =>
    intro f2 segs base cs _ hd _
    omega
  | succ a ih =>
    intro f2 segs base cs hr hd1 hd2
    cases f2 with
    | zero => omega
    | succ b =>
      cases segs with
      | nil => rfl
      | cons s rem =>
        have hlist := reach_listing root base cs hwf hr
        cases h1 : stage1Scan (treeRepo root) s rem (entriesOf base cs) with
        | some r =>
          rw [hunt_stage1 (treeRepo root) a s rem base r _ hlist h1,
            hunt_stage1 (treeRepo root) b s rem base r _ hlist h1]
        | none =>
          rw [hunt_stage2 (treeRepo root) a s rem base _ hlist h1,
            hunt_stage2 (treeRepo root) b s rem base _ hlist h1]
          apply stage2Scan_congr
          intro e he het
          obtain ⟨n2, gcs, hm, hname, hpath⟩ := dir_entry_anatomy base cs e he het
          rw [hpath]
          have hda : forestDepth gcs < a :=
            lt_of_lt_of_le (child_depth n2 gcs cs hm) (Nat.lt_succ_iff.mp hd1)
          have hdb : forestDepth gcs < b :=
            lt_of_lt_of_le (child_depth n2 gcs cs hm) (Nat.lt_succ_iff.mp hd2)
          exact ih b (s :: rem) (joinPath base n2) gcs (Reach.child hr hm) hda hdb

/-- The Stage 1 scan yields nothing when no listed entry is a directory
named like the first segment. -/
theorem stage1Scan_no_match (repo : Repo) (s : String) (rem : List String) :
    ∀ entries : List Entry, (∀ e ∈ entries, ¬(e.type = "dir" ∧ e.name = s)) →
      stage1Scan repo s rem entries = none := by
  intro entries
  induction entries with
  | nil => intro _; rfl
  | cons item rest ih =>
    intro hall
    rw [stage1Scan_skip repo s rem item rest (hall item (by simp))]
    exact ih (fun e he => hall e (by simp [he]))

/-- The Stage 2 scan yields nothing when every recursion yields nothing. -/
theorem stage2Scan_all_none (recurse : String → Option String)
    (hrec : ∀ q, recurse q = none) :
    ∀ entries : List Entry, stage2Scan recurse entries = none := by
  intro entries
  induction entries with
  | nil => rfl
  | cons item rest ih =>
    by_cases hit : item.type = "dir"
    · rw [stage2Scan_fail recurse item rest hit (by rw [hrec]; rfl)]
      exact ih
    · rw [stage2Scan_skip recurse item rest hit]
      exact ih

/-- No directory of a forest free of directories named `s` is named `s`. -/
theorem no_dir_name (s n : String) (g : FsForest) :
    ∀ ds, ForestMem (FsNode.dir n g) ds → forestHasDir s ds = false → n ≠ s := by
  intro ds h
  induction h with
  | head cs =>
    intro hf
    rw [forestHasDir, nodeHasDir] at hf
    simp only [Bool.or_eq_false_iff, beq_eq_false_iff_ne] at hf
    exact hf.1.1
  | tail d cs _ ih =>
    intro hf
    rw [forestHasDir] at hf
    simp only [Bool.or_eq_false_iff] at hf
    exact ih hf.2

/-- Every pair of a forest table is the listing of some subforest; a
subforest of a forest free of directories named `s` is itself free of
them. -/
theorem forestTable_shape (s : String) :
    ∀ cs, ∀ (base q : String) (es : List Entry), (q, es) ∈ forestTable base cs →
      ∃ ds, es = entriesOf q ds ∧
        (forestHasDir s cs = false → forestHasDir s ds = false) := by
  refine forest_nested_ind _ ?_ ?_ ?_
  · intro base q es h
    simp [forestTable] at h
  · intro n cs ih base q es h
    rw [forestTable, nodeTable, List.nil_append] at h
    obtain ⟨ds, h1, h2⟩ := ih base q es h
    refine ⟨ds, h1, fun hf => h2 ?_⟩
    rw [forestHasDir, nodeHasDir] at hf
    simpa using hf
  · intro n gcs cs ihg ihc base q es h
    rw [forestTable, nodeTable] at h
    rcases List.mem_append.mp h with h | h
    · rcases List.mem_cons.mp h with h | h
      · have hq : q = joinPath base n := by simpa using congrArg Prod.fst h
        have hes : es = entriesOf (joinPath base n) gcs := by
          simpa using congrArg Prod.snd h
        refine ⟨gcs, by rw [hes, hq], fun hf => ?_⟩
        rw [forestHasDir, nodeHasDir] at hf
        simp only [Bool.or_eq_false_iff] at hf
        exact hf.1.2
      · obtain ⟨ds, h1, h2⟩ := ihg (joinPath base n) q es h
        refine ⟨ds, h1, fun hf => h2 ?_⟩
        rw [forestHasDir, nodeHasDir] at hf
        simp only [Bool.or_eq_false_iff] at hf
        exact hf.1.2
    · obtain ⟨ds, h1, h2⟩ := ihc base q es h
      refine ⟨ds, h1, fun hf => h2 ?_⟩
      rw [forestHasDir, nodeHasDir] at hf
      simp only [Bool.or_eq_false_iff] at hf
      exact hf.2

/-- When the tree has no directory named like the first segment, the global
hunter returns NotFound from every starting path, for every fuel. -/
theorem hunt_no_dir (root : FsForest) (s : String) (rest : List String)
    (hno : forestHasDir s root = false) :
    ∀ (fuel : Nat) (base : String),
      findTargetSequenceGlobally (treeRepo root) fuel (s :: rest) base = none := by
  intro fuel
  induction fuel with
  | zero => intro base; rfl
  | succ n ih =>
    intro base
    cases hq : treeRepo root base with
    | error f => exact hunt_listing_error _ _ _ _ f hq
    | ok es =>
      have hmem : (base, es) ∈ repoTable root := by
        rw [treeRepo] at hq
        cases hl : lookupPath base (repoTable root) with
        | none => rw [hl] at hq; exact absurd hq (by simp)
        | some es2 =>
          rw [hl] at hq
          have he : es2 = es := by simpa using hq
          subst he
          exact lookupPath_mem base es2 _ hl
      obtain ⟨ds, hes, hnds⟩ : ∃ ds, es = entriesOf base ds ∧ forestHasDir s ds = false := by
        rw [repoTable] at hmem
        rcases List.mem_cons.mp hmem with h | h
        · have hb : base = "" := by simpa using congrArg Prod.fst h
          have he2 : es = entriesOf "" root := by simpa using congrArg Prod.snd h
          exact ⟨root, by rw [he2, hb], hno⟩
        · obtain ⟨ds, h1, h2⟩ := forestTable_shape s root "" base es h
          exact ⟨ds, h1, h2 hno⟩
      subst hes
      have h1 : stage1Scan (treeRepo root) s rest (entriesOf base ds) = none := by
        apply stage1Scan_no_match
        intro e he hcon
        obtain ⟨n2, g2, hm2, hname2, hpath2⟩ := dir_entry_anatomy base ds e he hcon.1
        exact no_dir_name s n2 g2 ds hm2 hnds (by rw [← hname2, hcon.2])
      rw [hunt_stage2 (treeRepo root) n s rest base _ hq h1]
      exact stage2Scan_all_none _ (fun q => ih q) _

/-- A forest containing a directory named `s` has a completion path for the
single-segment sequence made of `s`. -/
theorem hasDir_forestEnds (s : String) :
    ∀ cs, ∀ base, forestHasDir s cs = true → ∃ q, q ∈ forestEnds [s] cs base := by
  refine forest_nested_ind _ ?_ ?_ ?_
  · intro base h
    rw [forestHasDir] at h
    exact absurd h (by simp)
  · intro n cs ih base h
    rw [forestHasDir, nodeHasDir] at h
    rw [Bool.false_or] at h
    obtain ⟨q, hq⟩ := ih base h
    rcases List.mem_append.mp hq with hq | hq
    · obtain ⟨gcs, hm, hq⟩ := (chainEnds_mem s [] cs base q).mp hq
      exact ⟨q, List.mem_append.mpr
        (Or.inl ((chainEnds_mem s [] _ base q).mpr ⟨gcs, ForestMem.tail _ _ hm, hq⟩))⟩
    · obtain ⟨n2, g2, hm, hq⟩ := (deepEnds_mem [s] base q cs).mp hq
      exact ⟨q, List.mem_append.mpr
        (Or.inr ((deepEnds_mem [s] base q _).mpr ⟨n2, g2, ForestMem.tail _ _ hm, hq⟩))⟩
  · intro n gcs cs ihg ihc base h
    rw [forestHasDir, nodeHasDir] at h
    simp only [Bool.or_eq_true] at h
    rcases h with (h | h) | h
    · have hn : n = s := by simpa using h
      subst hn
      refine ⟨joinPath base n, List.mem_append.mpr (Or.inl ?_)⟩
      refine (chainEnds_mem n [] _ base _).mpr ⟨gcs, ForestMem.head cs, ?_⟩
      rw [chainEnds]
      simp
    · obtain ⟨q, hq⟩ := ihg (joinPath base n) h
      exact ⟨q, List.mem_append.mpr
        (Or.inr ((deepEnds_mem [s] base q _).mpr ⟨n, gcs, ForestMem.head cs, hq⟩))⟩
    · obtain ⟨q, hq⟩ := ihc base h
      rcases List.mem_append.mp hq with hq | hq
      · obtain ⟨g2, hm, hq⟩ := (chainEnds_mem s [] cs base q).mp hq
        exact ⟨q, List.mem_append.mpr
          (Or.inl ((chainEnds_mem s [] _ base q).mpr ⟨g2, ForestMem.tail _ _ hm, hq⟩))⟩
      · obtain ⟨n2, g2, hm, hq⟩ := (deepEnds_mem [s] base q cs).mp hq
        exact ⟨q, List.mem_append.mpr
          (Or.inr ((deepEnds_mem [s] base q _).mpr ⟨n2, g2, ForestMem.tail _ _ hm, hq⟩))⟩

/-! ## Claims C1, C2, C7, C8, C10: behaviour over finite well-formed trees -/

/-- C2: for every finite tree containing no directory named like the first
segment of the sequence, `locateSequence` returns NotFound, for every fuel
value.  No well-formedness of the tree is needed. -/
theorem C2_no_first_segment_notFound (root : FsForest) (s : String) (rest : List String)
    (fuel : Nat) (hno : forestHasDir s root = false) :
    locateSequence (treeRepo root) fuel (s :: rest) = none :=
  hunt_no_dir root s rest hno fuel ""

/-- Witness for C2: the example tree holds no directory named "q". -/
theorem C2_no_first_segment_notFound_witness :
    forestHasDir "q" cexTree = false ∧
    locateSequence (treeRepo cexTree) 4 ["q", "r"] = none :=
  ⟨by decide, C2_no_first_segment_notFound cexTree "q" ["r"] 4 (by decide)⟩

/-- C1 counterexample: in the tree with subtrees x/y/a and z/a, searching
for the single-segment sequence ["a"], the node path "z/a" completes the
sequence and no strictly shallower node completes it (the only other
completion, "x/y/a", is strictly deeper); yet `locateSequence` does not
return "z/a" — the depth-first search returns the deeper completion
"x/y/a" found inside the earlier sibling subtree. -/
theorem C1_counterexample :
    wfTree cexTree ∧
    forestEnds ["a"] cexTree "" = ["x/y/a", "z/a"] ∧
    (∀ q ∈ forestEnds ["a"] cexTree "", slashDepth "z/a" ≤ slashDepth q) ∧
    slashDepth "z/a" < slashDepth "x/y/a" ∧
    forestDepth cexTree < 4 ∧
    locateSequence (treeRepo cexTree) 4 ["a"] = some "x/y/a" ∧
    locateSequence (treeRepo cexTree) 4 ["a"] ≠ some "z/a" := by
  decide

/-- C1 (amended): for every finite well-formed tree in which the sequence
completes at exactly one node path P, `locateSequence` (with fuel beyond
the tree depth) returns P.  The spec's original hypothesis — that no
shallower node completes the sequence — is not sufficient, because the
search is depth-first, not breadth-first: a deeper completion inside an
earlier sibling subtree is returned first (see the counterexample). -/
theorem C1_unique_completion (root : FsForest) (fuel : Nat) (s : String)
    (rest : List String) (p : String) (hwf : wfTree root)
    (hfuel : forestDepth root < fuel)
    (huniq : forestEnds (s :: rest) root "" = [p]) :
    locateSequence (treeRepo root) fuel (s :: rest) = some p := by
  have hmem : p ∈ forestEnds (s :: rest) root "" := by
    rw [huniq]
    simp
  have htr := hunt_tree_complete root hwf fuel s rest "" root p Reach.top hfuel hmem
  cases hres : findTargetSequenceGlobally (treeRepo root) fuel (s :: rest) "" with
  | none =>
    rw [hres] at htr
    simp [pyTruthy] at htr
  | some q =>
    have hsound := (hunt_tree_sound root hwf fuel (s :: rest) "" root q Reach.top hres).1
    rw [huniq] at hsound
    simp only [List.mem_singleton] at hsound
    rw [locateSequence, hres, hsound]

/-- Witness for the amended C1 on the tree with the unique completion
a/b of the sequence ["a", "b"]. -/
theorem C1_unique_completion_witness :
    wfTree abTree ∧ forestDepth abTree < 3 ∧
    forestEnds ["a", "b"] abTree "" = ["a/b"] ∧
    locateSequence (treeRepo abTree) 3 ["a", "b"] = some "a/b" :=
  ⟨by decide, by decide, by decide,
    C1_unique_completion abTree 3 "a" ["b"] "a/b" (by decide) (by decide) (by decide)⟩

/-- C7: for a single-segment sequence, on every well-formed tree containing
some directory named like the segment, `locateSequence` (with fuel beyond
the tree depth) returns the path of a directory named like the segment —
regardless of that directory's contents — and never NotFound.  The list
`forestEnds [s] root ""` holds exactly the paths of the directories of the
tree named `s`. -/
theorem C7_single_segment (root : FsForest) (fuel : Nat) (s : String)
    (hwf : wfTree root) (hfuel : forestDepth root < fuel)
    (hhas : forestHasDir s root = true) :
    ∃ p, locateSequence (treeRepo root) fuel [s] = some p ∧
      p ∈ forestEnds [s] root "" := by
  obtain ⟨q, hq⟩ := hasDir_forestEnds s root "" hhas
  have htr := hunt_tree_complete root hwf fuel s [] "" root q Reach.top hfuel hq
  cases hres : findTargetSequenceGlobally (treeRepo root) fuel [s] "" with
  | none =>
    rw [hres] at htr
    simp [pyTruthy] at htr
  | some p =>
    exact ⟨p, by rw [locateSequence, hres],
      (hunt_tree_sound root hwf fuel [s] "" root p Reach.top hres).1⟩

/-- Witness for C7 on the example tree, which holds directories named
"a". -/
theorem C7_single_segment_witness :
    wfTree cexTree ∧ forestDepth cexTree < 4 ∧ forestHasDir "a" cexTree = true ∧
    (∃ p, locateSequence (treeRepo cexTree) 4 ["a"] = some p ∧
      p ∈ forestEnds ["a"] cexTree "") :=
  ⟨by decide, by decide, by decide,
    C7_single_segment cexTree 4 "a" (by decide) (by decide) (by decide)⟩

/-- C8: on every finite well-formed tree, the global hunter stabilizes at
fuel `forestDepth root + 1`: any two fuel values strictly above the tree
depth produce the same result.  Each Stage 2 recursion strictly descends
into a child directory, so the recursion depth is bounded by the tree depth
and the fueled embedding computes a fuel-independent total function. -/
theorem C8_terminates_depth_bound (root : FsForest) (segs : List String) (f1 f2 : Nat)
    (hwf : wfTree root) (h1 : forestDepth root < f1) (h2 : forestDepth root < f2) :
    findTargetSequenceGlobally (treeRepo root) f1 segs "" =
      findTargetSequenceGlobally (treeRepo root) f2 segs "" :=
  hunt_fuel_stable root hwf f1 f2 segs "" root Reach.top h1 h2

/-- Witness for C8 on the example tree with two different fuel values. -/
theorem C8_terminates_depth_bound_witness :
    wfTree cexTree ∧ forestDepth cexTree < 4 ∧ forestDepth cexTree < 9 ∧
    findTargetSequenceGlobally (treeRepo cexTree) 4 ["a"] "" =
      findTargetSequenceGlobally (treeRepo cexTree) 9 ["a"] "" :=
  ⟨by decide, by decide, by decide,
    C8_terminates_depth_bound cexTree ["a"] 4 9 (by decide) (by decide) (by decide)⟩

/-- C10: on every well-formed tree and nonempty segment sequence, a
successful result of `locateSequence` is a nonempty path, and it is the
path field of a directory-type entry of some listing of the repository;
moreover the embedded success check used at each propagation point treats
the empty-string path exactly like NotFound. -/
theorem C10_success_is_dir_entry_path (root : FsForest) (fuel : Nat) (s : String)
    (rest : List String) (p : String) (hwf : wfTree root)
    (hres : locateSequence (treeRepo root) fuel (s :: rest) = some p) :
    p ≠ "" ∧
    (∃ q contents e, treeRepo root q = Except.ok contents ∧ e ∈ contents ∧
      e.type = "dir" ∧ e.path = p) ∧
    pyTruthy (some "") = false := by
  rw [locateSequence] at hres
  have hkeys := (hunt_tree_sound root hwf fuel (s :: rest) "" root p Reach.top hres).2
  exact ⟨reach_key_ne_empty root "" root hwf Reach.top p hkeys,
    hunt_result_entry (treeRepo root) fuel (s :: rest) "" p hres, rfl⟩

/-- Witness for C10 on the example tree. -/
theorem C10_success_is_dir_entry_path_witness :
    wfTree cexTree ∧ locateSequence (treeRepo cexTree) 4 ["a"] = some "x/y/a" ∧
    ("x/y/a" ≠ "" ∧
     (∃ q contents e, treeRepo cexTree q = Except.ok contents ∧ e ∈ contents ∧
       e.type = "dir" ∧ e.path = "x/y/a") ∧
     pyTruthy (some "") = false) :=
  ⟨by decide, by decide,
    C10_success_is_dir_entry_path cexTree 4 "a" [] "x/y/a" (by decide) (by decide)⟩
